import Mathlib

/-!
Verification of the sauvegarde CDP backup server (file backend and HTTP
dispatcher) against its specification.  The C sources in
src/server/file_backend.c and src/server/server.c are embedded shallowly:
byte strings become `List Nat`, C strings become `List Char`, the
filesystem becomes a pair of partial maps from filenames, and libglib
calls are modelled by their documented behaviour.  Helper functions of
the project whose sources are not part of the server tree (hash/hex
codecs, compression check, key-file readers) are modelled from the
specification; each such definition says so in its doc comment.
-/

/- ===================== hex codec and paths ===================== -/

/-- Modelled from the spec: the sixteen lowercase hex digit characters
used by the `%02x` rendering of hash bytes. -/
def hexDigits : List Char :=
  ['0', '1', '2', '3', '4', '5', '6', '7', '8', '9'] ++ ['a', 'b', 'c', 'd', 'e', 'f']

/-- Modelled from the spec: the hex character for a nibble value. -/
def hexDigitChar (n : Nat) : Char := hexDigits.getD n '0'

/-- Modelled from the spec: the nibble value of a hex character. -/
def hexCharVal (c : Char) : Nat := hexDigits.indexOf c

/-- Modelled from the spec: `hash_to_string` of hashs.h renders a binary
hash as lowercase hexadecimal, two digits per byte. -/
def hash_to_string : List Nat → List Char
  | [] => []
  | b :: t => hexDigitChar (b / 16) :: hexDigitChar (b % 16) :: hash_to_string t

/-- Modelled from the spec: `string_to_hash` of hashs.h parses pairs of
hex characters back into bytes. -/
def string_to_hash : List Char → List Nat
  | c1 :: c2 :: t => (hexCharVal c1 * 16 + hexCharVal c2) :: string_to_hash t
  | _ => []

/-- Modelled from the spec: fan-out path components, one `/xy` component
per hash byte. -/
def hash_fanout : List Nat → List Char
  | [] => []
  | b :: t => '/' :: hexDigitChar (b / 16) :: hexDigitChar (b % 16) :: hash_fanout t

/-- Modelled from the spec: `make_path_from_hash` of hashs.h builds
`path/xy/zt/...` from the first `level` bytes of the hash. -/
def make_path_from_hash (path : List Char) (hash : List Nat) (level : Nat) : List Char :=
  path ++ hash_fanout (hash.take level)

/-- `build_filename_from_hash` (file_backend.c): the file name of a block
is the hex hash with the first `level` bytes (2*level hex chars) removed,
appended to the fan-out path. -/
def build_filename_from_hash (path : List Char) (hex_hash : List Char) (level : Nat) : List Char :=
  path ++ '/' :: hex_hash.drop (level * 2)

/- ===================== compression constants ===================== -/

/-- Modelled from the spec: the no-compression type tag (`cmptype : 0` in
the wire examples). -/
def COMPRESS_NONE_TYPE : Int := 0

/-- Modelled from the spec: the zlib compression type tag. -/
def COMPRESS_ZLIB_TYPE : Int := 1

/-- Modelled from the spec: `is_compress_type_allowed` accepts exactly
the known compression type tags. -/
def is_compress_type_allowed (c : Int) : Bool :=
  c == COMPRESS_NONE_TYPE || c == COMPRESS_ZLIB_TYPE

/- ===================== filesystem model ===================== -/

/-- The filesystem as seen by the file backend: a map from data file
names to stored bytes and a map from `.meta` sidecar file names to the
`(uncmplen, cmptype)` key/value pair they hold. -/
structure FileSystem where
  data : List Char → Option (List Nat)
  fmeta : List Char → Option (Int × Int)

/-- The `file_backend_t` structure: prefix path and fan-out level. -/
structure FileBackend where
  prefix2 : List Char
  level : Nat

/-- The characters of the `.meta` suffix appended by
`g_strdup_printf("%s.meta", filename)`. -/
def metaSuffix : List Char := ['.', 'm', 'e', 't', 'a']

/-- The characters of the `/data` path component appended by
`g_build_filename(prefix, "data", NULL)`. -/
def slashData : List Char := ['/', 'd', 'a', 't', 'a']

/-- The full name of the data file holding the block of a hash
(as derived by both `file_store_data` and `file_build_needed_hash_list`). -/
def data_filename (fb : FileBackend) (h : List Nat) : List Char :=
  build_filename_from_hash
    (make_path_from_hash (fb.prefix2 ++ slashData) h fb.level)
    (hash_to_string h) fb.level

/-- `g_file_query_exists` on the data file of a hash, as used by
`file_build_needed_hash_list` (file_backend.c:380). -/
def file_hash_exists (fb : FileBackend) (fs : FileSystem) (h : List Nat) : Bool :=
  (fs.data (data_filename fb h)).isSome

/- ===================== C1: needed hash list ===================== -/

/-- Modelled from the spec: `hash_data_is_in_list` tests whether a hash
already occurs in a list of hashes. -/
def hash_data_is_in_list (h : List Nat) (l : List (List Nat)) : Bool :=
  l.any (fun x => x == h)

/-- The while loop of `file_build_needed_hash_list`
(file_backend.c:369-395): walk the input, prepend a hash to `needed`
when its data file does not exist and it is not yet in `needed`. -/
def file_build_needed_hash_list_loop (fb : FileBackend) (fs : FileSystem) :
    List (List Nat) → List (List Nat) → List (List Nat)
  | [], needed => needed
  | h :: t, needed =>
      if file_hash_exists fb fs h = false ∧ hash_data_is_in_list h needed = false then
        file_build_needed_hash_list_loop fb fs t (h :: needed)
      else
        file_build_needed_hash_list_loop fb fs t needed

/-- `file_build_needed_hash_list` (file_backend.c:349-402): run the loop
on an empty accumulator and reverse the result. -/
def file_build_needed_hash_list (fb : FileBackend) (fs : FileSystem)
    (hash_data_list : List (List Nat)) : List (List Nat) :=
  (file_build_needed_hash_list_loop fb fs hash_data_list []).reverse

/-- First-occurrence deduplication: keep each value's first occurrence,
drop the later ones. -/
def dedupKeepFirst {α : Type} [DecidableEq α] : List α → List α
  | [] => []
  | h :: t => h :: dedupKeepFirst (t.filter (fun x => x ≠ h))
termination_by l => l.length
decreasing_by
  simp only [List.length_cons]
  exact Nat.lt_succ_of_le (List.length_filter_le _ _)

theorem dedupKeepFirst_filter {α : Type} [DecidableEq α] (l : List α) :
    ∀ p : α → Bool, dedupKeepFirst (l.filter p) = (dedupKeepFirst l).filter p := by
  induction l using dedupKeepFirst.induct with
  | case1 => intro p; simp [dedupKeepFirst]
  | case2 h t ih =>
    intro p
    by_cases hp : p h = true
    · rw [show (h :: t).filter p = h :: t.filter p by simp [List.filter_cons, hp]]
      rw [dedupKeepFirst, dedupKeepFirst]
      rw [show (t.filter p).filter (fun x => x ≠ h) = (t.filter (fun x => x ≠ h)).filter p by
        rw [List.filter_filter, List.filter_filter]
        exact List.filter_congr (fun x _ => by rw [Bool.and_comm])]
      rw [ih p]
      simp [List.filter_cons, hp]
    · have hpf : p h = false := Bool.eq_false_iff.2 hp
      rw [show (h :: t).filter p = t.filter p by simp [List.filter_cons, hpf]]
      rw [show t.filter p = (t.filter (fun x => x ≠ h)).filter p by
        rw [List.filter_filter]
        refine List.filter_congr (fun x _ => ?_)
        by_cases hx : x = h
        · subst hx; simp [hpf]
        · simp [hx]]
      rw [ih p, dedupKeepFirst]
      simp [List.filter_cons, hpf]

theorem needed_loop_eq (fb : FileBackend) (fs : FileSystem) (L : List (List Nat)) :
    ∀ acc : List (List Nat),
      file_build_needed_hash_list_loop fb fs L acc =
        ((dedupKeepFirst (L.filter (fun h => !hash_data_is_in_list h acc))).filter
          (fun h => !file_hash_exists fb fs h)).reverse ++ acc := by
  induction L with
  | nil => intro acc; simp [file_build_needed_hash_list_loop, dedupKeepFirst]
  | cons h t ih =>
    intro acc
    by_cases hmem : hash_data_is_in_list h acc = true
    · have hcond : ¬(file_hash_exists fb fs h = false ∧ hash_data_is_in_list h acc = false) := by
        intro hc; rw [hmem] at hc; exact absurd hc.2 (by simp)
      rw [file_build_needed_hash_list_loop, if_neg hcond, ih acc]
      congr 3
      simp [List.filter_cons, hmem]
    · have hmem' : hash_data_is_in_list h acc = false := Bool.eq_false_iff.2 hmem
      have hkeep : ((h :: t).filter (fun x => !hash_data_is_in_list x acc)) =
          h :: t.filter (fun x => !hash_data_is_in_list x acc) := by
        simp [List.filter_cons, hmem']
      by_cases hex : file_hash_exists fb fs h = false
      · -- the hash is needed: it is prepended to the accumulator
        rw [file_build_needed_hash_list_loop, if_pos ⟨hex, hmem'⟩, ih (h :: acc)]
        rw [hkeep, dedupKeepFirst]
        rw [show (t.filter (fun x => !hash_data_is_in_list x acc)).filter (fun x => x ≠ h) =
              t.filter (fun x => !hash_data_is_in_list x (h :: acc)) by
          rw [List.filter_filter]
          refine List.filter_congr (fun x _ => ?_)
          by_cases hx : x = h
          · subst hx
            simp [hash_data_is_in_list, List.any_cons]
          · have hb : (h == x) = false := beq_eq_false_iff_ne.2 (fun e => hx e.symm)
            have hd : decide (x ≠ h) = true := by simp [hx]
            simp [hash_data_is_in_list, List.any_cons, hb, hd]]
        rw [show ((h :: (dedupKeepFirst (t.filter (fun x => !hash_data_is_in_list x (h :: acc))))).filter
              (fun x => !file_hash_exists fb fs x)) =
            h :: ((dedupKeepFirst (t.filter (fun x => !hash_data_is_in_list x (h :: acc)))).filter
              (fun x => !file_hash_exists fb fs x)) by
          simp [List.filter_cons, hex]]
        simp
      · -- the data file exists: the hash is skipped on both sides
        have hex' : file_hash_exists fb fs h = true := by
          cases hcase : file_hash_exists fb fs h
          · exact absurd hcase hex
          · rfl
        have hcond : ¬(file_hash_exists fb fs h = false ∧ hash_data_is_in_list h acc = false) := by
          intro hc; rw [hex'] at hc; exact absurd hc.1 (by simp)
        rw [file_build_needed_hash_list_loop, if_neg hcond, ih acc]
        rw [hkeep, dedupKeepFirst]
        have h1 : ((h :: (dedupKeepFirst ((t.filter (fun x => !hash_data_is_in_list x acc)).filter
              (fun x => x ≠ h)))).filter (fun x => !file_hash_exists fb fs x)) =
            ((dedupKeepFirst ((t.filter (fun x => !hash_data_is_in_list x acc)).filter
              (fun x => x ≠ h))).filter (fun x => !file_hash_exists fb fs x)) := by
          simp [List.filter_cons, hex']
        have h3 : ((dedupKeepFirst ((t.filter (fun x => !hash_data_is_in_list x acc)).filter
              (fun x => x ≠ h))).filter (fun x => !file_hash_exists fb fs x)) =
            ((dedupKeepFirst (t.filter (fun x => !hash_data_is_in_list x acc))).filter
              (fun x => !file_hash_exists fb fs x)) := by
          rw [dedupKeepFirst_filter, List.filter_filter]
          refine List.filter_congr (fun x _ => ?_)
          by_cases hx : x = h
          · subst hx; simp [hex']
          · simp [hx]
        rw [h1, h3]

theorem mem_dedupKeepFirst {α : Type} [DecidableEq α] (l : List α) :
    ∀ x : α, x ∈ dedupKeepFirst l ↔ x ∈ l := by
  induction l using dedupKeepFirst.induct with
  | case1 => intro x; simp [dedupKeepFirst]
  | case2 h t ih =>
    intro x
    rw [dedupKeepFirst]
    by_cases hx : x = h
    · subst hx; simp
    · simp only [List.mem_cons, ih x, List.mem_filter]
      constructor
      · rintro (hc | ⟨hm, _⟩)
        · exact Or.inl hc
        · exact Or.inr hm
      · rintro (hc | hm)
        · exact Or.inl hc
        · exact Or.inr ⟨hm, by simp [hx]⟩

/-- C1.  `file_build_needed_hash_list` returns the input hashes whose
data files do not exist, first occurrences only, in input order: it
equals first-occurrence deduplication followed by the not-exists filter,
and consequently a hash of the input list is in the result iff its block
is absent from the store. -/
theorem file_build_needed_hash_list_correct (fb : FileBackend) (fs : FileSystem)
    (L : List (List Nat)) :
    file_build_needed_hash_list fb fs L =
      (dedupKeepFirst L).filter (fun h => !file_hash_exists fb fs h) ∧
    ∀ h ∈ L, (h ∈ file_build_needed_hash_list fb fs L ↔ file_hash_exists fb fs h = false) := by
  have hmain : file_build_needed_hash_list fb fs L =
      (dedupKeepFirst L).filter (fun h => !file_hash_exists fb fs h) := by
    rw [file_build_needed_hash_list, needed_loop_eq fb fs L []]
    rw [show L.filter (fun h => !hash_data_is_in_list h []) = L by
      refine List.filter_congr (fun x _ => ?_) |>.trans (List.filter_true L)
      simp [hash_data_is_in_list]]
    simp
  refine ⟨hmain, fun h hmem => ?_⟩
  rw [hmain]
  simp only [List.mem_filter, mem_dedupKeepFirst, Bool.not_eq_true']
  constructor
  · rintro ⟨_, he⟩; exact he
  · intro he; exact ⟨hmem, he⟩

/- ===================== C3: block store round trip ===================== -/

/-- The `hash_data_t` structure together with the per-block metadata
carried alongside it by the server (`cmptype`, `uncmplen`). -/
structure HashData where
  hash : List Nat
  data : List Nat
  read : Nat
  cmptype : Int
  uncmplen : Int
deriving DecidableEq

/-- `set_metadata_to_file_meta` (file_backend.c:239-260): write the
`.meta` sidecar key file with `uncmplen` and `cmptype`, replacing a
disallowed compression type by `COMPRESS_NONE_TYPE`. -/
def set_metadata_to_file_meta (fs : FileSystem) (filename : List Char)
    (uncmplen : Int) (cmptype : Int) : FileSystem :=
  { fs with fmeta := fun f =>
      if f = filename ++ metaSuffix then
        some (uncmplen, if is_compress_type_allowed cmptype then cmptype else COMPRESS_NONE_TYPE)
      else fs.fmeta f }

/-- `get_cmptype_from_file_meta` (file_backend.c:180-203): read `cmptype`
from the sidecar, default `COMPRESS_NONE_TYPE` when the sidecar is
missing, and fall back to `COMPRESS_NONE_TYPE` when the stored value is
not an allowed compression type. -/
def get_cmptype_from_file_meta (fs : FileSystem) (filename : List Char) : Int :=
  let c := match fs.fmeta (filename ++ metaSuffix) with
    | none => COMPRESS_NONE_TYPE
    | some (_, c) => c
  if is_compress_type_allowed c then c else COMPRESS_NONE_TYPE

/-- `get_uncmplen_from_file_meta` (file_backend.c:212-230): read
`uncmplen` from the sidecar, default 0 when the sidecar is missing. -/
def get_uncmplen_from_file_meta (fs : FileSystem) (filename : List Char) : Int :=
  match fs.fmeta (filename ++ metaSuffix) with
  | none => 0
  | some (u, _) => u

/-- `file_store_data` (file_backend.c:274-338): derive the data file
name from the hash, write the sidecar metadata, then replace the data
file with the `read` first bytes of the block payload. -/
def file_store_data (fb : FileBackend) (fs : FileSystem) (hd : HashData) : FileSystem :=
  let path := make_path_from_hash (fb.prefix2 ++ slashData) hd.hash fb.level
  let filename := build_filename_from_hash path (hash_to_string hd.hash) fb.level
  let fs1 := set_metadata_to_file_meta fs filename hd.uncmplen hd.cmptype
  { fs1 with data := fun f =>
      if f = filename then some (hd.data.take hd.read) else fs1.data f }

/-- `file_retrieve_data` (file_backend.c:996-1066): derive the data file
name from the hex hash, read the sidecar compression type, read the
whole file, and return the block (or nothing when the file cannot be
opened). -/
def file_retrieve_data (fb : FileBackend) (fs : FileSystem) (hex_hash : List Char) :
    Option HashData :=
  let hash := string_to_hash hex_hash
  let path := make_path_from_hash (fb.prefix2 ++ slashData) hash fb.level
  let filename := build_filename_from_hash path hex_hash fb.level
  let cmptype := get_cmptype_from_file_meta fs filename
  match fs.data filename with
  | none => none
  | some bytes =>
      some { hash := hash, data := bytes, read := bytes.length,
             cmptype := cmptype,
             uncmplen := get_uncmplen_from_file_meta fs filename }

theorem hex_nibble_round (d : Nat) (hd : d < 16) :
    hexCharVal (hexDigitChar d) = d := by
  have hall : ∀ i : Fin 16, hexCharVal (hexDigitChar i.val) = i.val := by decide
  exact hall ⟨d, hd⟩

theorem string_to_hash_round (h : List Nat) (hbytes : ∀ b ∈ h, b < 256) :
    string_to_hash (hash_to_string h) = h := by
  induction h with
  | nil => rfl
  | cons b t ih =>
    have hb : b < 256 := hbytes b (by simp)
    rw [hash_to_string, string_to_hash]
    rw [hex_nibble_round (b / 16) (by omega), hex_nibble_round (b % 16) (by omega)]
    rw [ih (fun x hx => hbytes x (by simp [hx]))]
    congr 1
    omega

/-- C3.  Storing a block with compression type `COMPRESS_NONE_TYPE` and
`uncmplen` equal to its length, then retrieving its hash (as hex, the
way the URL delivers it), returns a block with the same bytes,
compression type `COMPRESS_NONE_TYPE` and `uncmplen` equal to the byte
count. -/
theorem file_store_then_retrieve (fb : FileBackend) (fs : FileSystem) (hd : HashData)
    (hbytes : ∀ b ∈ hd.hash, b < 256)
    (hcmp : hd.cmptype = COMPRESS_NONE_TYPE)
    (hlen : hd.uncmplen = (hd.data.length : Int))
    (hread : hd.read = hd.data.length) :
    file_retrieve_data fb (file_store_data fb fs hd) (hash_to_string hd.hash) =
      some { hash := hd.hash, data := hd.data, read := hd.data.length,
             cmptype := COMPRESS_NONE_TYPE,
             uncmplen := (hd.data.length : Int) } := by
  have hhash : string_to_hash (hash_to_string hd.hash) = hd.hash :=
    string_to_hash_round hd.hash hbytes
  rw [file_retrieve_data, file_store_data]
  rw [hhash]
  rw [set_metadata_to_file_meta]
  simp only [if_pos rfl]
  rw [get_cmptype_from_file_meta, get_uncmplen_from_file_meta]
  simp only [if_pos rfl]
  rw [hcmp]
  have hallow : is_compress_type_allowed COMPRESS_NONE_TYPE = true := by decide
  rw [hallow]
  simp only [if_true, hread, List.take_length, hlen, ite_self]


/- ===================== C2: streaming journal parser ===================== -/

structure Buffer where
  buf : List Char
  size : Nat
  pos : Nat
  rest : List Char

def read_one_buffer (B : Nat) (a : Buffer) : Buffer :=
  { buf := a.rest.take B, size := (a.rest.take B).length, pos := 0, rest := a.rest.drop B }

def lineSlice (buf : List Char) (pos i : Nat) : List Char := (buf.drop pos).take (i - pos)

def newInStr (c : Char) (inStr : Bool) : Bool := if c = '\"' then !inStr else inStr

def newComma (c : Char) (inStr : Bool) (comma : Nat) : Nat :=
  if c ≠ '\"' ∧ c = ',' ∧ inStr = false then comma + 1 else comma

def extractLoop (B : Nat) (a : Buffer) (i comma : Nat) (inStr : Bool) (whole : List Char) :
    List Char × Buffer :=
  if a.size = 0 then
    (whole ++ lineSlice a.buf a.pos i, { a with pos := i + 1 })
  else if i < a.size then
    if a.buf.getD i ' ' = '\n' ∧ newInStr (a.buf.getD i ' ') inStr = false ∧
        12 ≤ newComma (a.buf.getD i ' ') inStr comma then
      (whole ++ lineSlice a.buf a.pos i, { a with pos := i + 1 })
    else
      extractLoop B a (i + 1) (newComma (a.buf.getD i ' ') inStr comma)
        (newInStr (a.buf.getD i ' ') inStr) whole
  else
    extractLoop B (read_one_buffer B a) 0 comma inStr (whole ++ lineSlice a.buf a.pos i)
termination_by 2 * a.rest.length + (a.size - i) + a.size
decreasing_by
  · omega
  · simp only [read_one_buffer, List.length_take, List.length_drop]
    omega


def extract_one_line_from_buffer (B : Nat) (a : Buffer) : List Char × Buffer :=
  extractLoop B a a.pos 0 false []

def bufMeasure (a : Buffer) : Nat := 2 * a.rest.length + (a.size - a.pos) + a.size

theorem extractLoop_measure (B : Nat) (a : Buffer) (i comma : Nat) (inStr : Bool)
    (whole : List Char) :
    (extractLoop B a i comma inStr whole).2.size = 0 ∨
      bufMeasure (extractLoop B a i comma inStr whole).2 <
        2 * a.rest.length + (a.size - i) + a.size := by
  induction a, i, comma, inStr, whole using extractLoop.induct B with
  | case1 a i comma inStr whole h0 =>
    rw [extractLoop, if_pos h0]
    exact Or.inl h0
  | case2 a i comma inStr whole h0 hi hterm =>
    rw [extractLoop, if_neg h0, if_pos hi, if_pos hterm]
    refine Or.inr ?_
    simp only [bufMeasure]
    omega
  | case3 a i comma inStr whole h0 hi hterm ih =>
    rw [extractLoop, if_neg h0, if_pos hi, if_neg hterm]
    rcases ih with h | h
    · exact Or.inl h
    · refine Or.inr (lt_of_lt_of_le h ?_)
      omega
  | case4 a i comma inStr whole h0 hi ih =>
    rw [extractLoop, if_neg h0, if_neg hi]
    rcases ih with h | h
    · exact Or.inl h
    · refine Or.inr (lt_of_lt_of_le h ?_)
      simp only [read_one_buffer, List.length_take, List.length_drop]
      omega

def get_lines (B : Nat) (a : Buffer) : List (List Char) :=
  if (extract_one_line_from_buffer B a).2.size = 0 then []
  else (extract_one_line_from_buffer B a).1 :: get_lines B (extract_one_line_from_buffer B a).2
termination_by bufMeasure a
decreasing_by
  rcases extractLoop_measure B a a.pos 0 false [] with h | h
  · exact absurd h (by assumption)
  · exact h

def file_lines (B : Nat) (content : List Char) : List (List Char) :=
  get_lines B (read_one_buffer B { buf := [], size := 0, pos := 0, rest := content })

def refScan : List Char → Nat → Bool → Option (List Char × List Char)
  | [], _, _ => none
  | c :: t, comma, inStr =>
    if c = '\n' ∧ newInStr c inStr = false ∧ 12 ≤ newComma c inStr comma then
      some ([], t)
    else
      match refScan t (newComma c inStr comma) (newInStr c inStr) with
      | none => none
      | some (l, r) => some (c :: l, r)

theorem refScan_some_length (s : List Char) :
    ∀ comma inStr l r, refScan s comma inStr = some (l, r) → r.length < s.length := by
  induction s with
  | nil => intro comma inStr l r h; simp [refScan] at h
  | cons c t ih =>
    intro comma inStr l r h
    rw [refScan] at h
    by_cases hterm : c = '\n' ∧ newInStr c inStr = false ∧ 12 ≤ newComma c inStr comma
    · rw [if_pos hterm] at h
      injection h with h
      injection h with h1 h2
      subst h2
      simp
    · rw [if_neg hterm] at h
      rcases hs : refScan t (newComma c inStr comma) (newInStr c inStr) with _ | ⟨l', r'⟩
      · rw [hs] at h; exact absurd h (by simp)
      · rw [hs] at h
        injection h with h
        injection h with h1 h2
        subst h2
        exact Nat.lt_trans (ih _ _ _ _ hs) (by simp)

def refLines (content : List Char) : List (List Char) :=
  match hs : refScan content 0 false with
  | none => []
  | some (l, r) => l :: refLines r
termination_by content.length
decreasing_by
  exact refScan_some_length content 0 false l r hs

theorem refLines_none (content : List Char) (h : refScan content 0 false = none) :
    refLines content = [] := by
  rw [refLines, h]

theorem refLines_some (content : List Char) (l r : List Char)
    (h : refScan content 0 false = some (l, r)) :
    refLines content = l :: refLines r := by
  rw [refLines, h]

def validBuf (B : Nat) (a : Buffer) : Prop :=
  a.size = a.buf.length ∧ a.size ≤ B ∧ (a.size < B → a.rest = []) ∧ a.pos ≤ a.size

def bufContent (a : Buffer) : List Char := a.buf.drop a.pos ++ a.rest

theorem refScan_cons (c : Char) (t : List Char) (comma : Nat) (inStr : Bool) :
    refScan (c :: t) comma inStr =
      if c = '\n' ∧ newInStr c inStr = false ∧ 12 ≤ newComma c inStr comma then
        some ([], t)
      else
        match refScan t (newComma c inStr comma) (newInStr c inStr) with
        | none => none
        | some (l, r) => some (c :: l, r) := rfl

theorem lineSlice_self (buf : List Char) (pos : Nat) : lineSlice buf pos pos = [] := by
  simp [lineSlice, Nat.sub_self]

theorem lineSlice_succ (buf : List Char) (pos i : Nat) (hpi : pos ≤ i) (hi : i < buf.length) :
    lineSlice buf pos (i + 1) = lineSlice buf pos i ++ [buf.getD i ' '] := by
  have h1 : i + 1 - pos = (i - pos) + 1 := by omega
  rw [lineSlice, lineSlice, h1, List.take_succ]
  congr 1
  have h2 : (buf.drop pos)[i - pos]? = buf[i]? := by
    rw [List.getElem?_drop]
    congr 1
    omega
  rw [h2, List.getElem?_eq_getElem hi, List.getD_eq_getElem buf ' ' hi]
  rfl

theorem extractLoop_spec (B : Nat) (hB : 1 ≤ B) (a : Buffer) (i comma : Nat) (inStr : Bool)
    (whole : List Char) :
    validBuf B a → a.pos ≤ i → i ≤ a.size →
    (refScan (a.buf.drop i ++ a.rest) comma inStr = none →
        (extractLoop B a i comma inStr whole).2.size = 0) ∧
    (∀ l r, refScan (a.buf.drop i ++ a.rest) comma inStr = some (l, r) →
        (extractLoop B a i comma inStr whole).1 = whole ++ lineSlice a.buf a.pos i ++ l ∧
        validBuf B (extractLoop B a i comma inStr whole).2 ∧
        bufContent (extractLoop B a i comma inStr whole).2 = r ∧
        (extractLoop B a i comma inStr whole).2.size ≠ 0) := by
  induction a, i, comma, inStr, whole using extractLoop.induct B with
  | case1 a i comma inStr whole h0 =>
    intro hv hpi his
    have hbuf : a.buf = [] := by
      have hlen : a.buf.length = 0 := by rw [← hv.1]; exact h0
      exact List.length_eq_zero.1 hlen
    have hrest : a.rest = [] := hv.2.2.1 (by omega)
    constructor
    · intro _
      rw [extractLoop, if_pos h0]
      exact h0
    · intro l r hsc
      rw [hbuf, hrest] at hsc
      simp [refScan] at hsc
  | case2 a i comma inStr whole h0 hi hterm =>
    intro hv hpi his
    have hi' : i < a.buf.length := hv.1 ▸ hi
    have hdrop : a.buf.drop i ++ a.rest =
        a.buf.getD i ' ' :: (a.buf.drop (i + 1) ++ a.rest) := by
      rw [List.drop_eq_getElem_cons hi', List.getD_eq_getElem a.buf ' ' hi']
      rfl
    constructor
    · intro hsc
      rw [hdrop, refScan_cons, if_pos hterm] at hsc
      exact absurd hsc (by simp)
    · intro l r hsc
      rw [hdrop, refScan_cons, if_pos hterm] at hsc
      have hl : l = [] ∧ r = a.buf.drop (i + 1) ++ a.rest := by
        refine ⟨?_, ?_⟩ <;> injection hsc with h <;> injection h with h1 h2
        · exact h1.symm
        · exact h2.symm
      rw [extractLoop, if_neg h0, if_pos hi, if_pos hterm]
      refine ⟨by simp [hl.1], ⟨hv.1, hv.2.1, hv.2.2.1, by show i + 1 ≤ a.size; omega⟩, ?_, h0⟩
      simp only [bufContent]
      exact hl.2.symm
  | case3 a i comma inStr whole h0 hi hterm ih =>
    intro hv hpi his
    have hi' : i < a.buf.length := hv.1 ▸ hi
    have hdrop : a.buf.drop i ++ a.rest =
        a.buf.getD i ' ' :: (a.buf.drop (i + 1) ++ a.rest) := by
      rw [List.drop_eq_getElem_cons hi', List.getD_eq_getElem a.buf ' ' hi']
      rfl
    have ih' := ih hv (by omega) (by omega)
    rw [extractLoop, if_neg h0, if_pos hi, if_neg hterm]
    constructor
    · intro hsc
      rw [hdrop, refScan_cons, if_neg hterm] at hsc
      rcases hinner : refScan (a.buf.drop (i + 1) ++ a.rest)
          (newComma (a.buf.getD i ' ') inStr comma) (newInStr (a.buf.getD i ' ') inStr) with
        _ | ⟨l', r'⟩
      · exact ih'.1 hinner
      · rw [hinner] at hsc
        exact absurd hsc (by simp)
    · intro l r hsc
      rw [hdrop, refScan_cons, if_neg hterm] at hsc
      rcases hinner : refScan (a.buf.drop (i + 1) ++ a.rest)
          (newComma (a.buf.getD i ' ') inStr comma) (newInStr (a.buf.getD i ' ') inStr) with
        _ | ⟨l', r'⟩
      · rw [hinner] at hsc
        exact absurd hsc (by simp)
      · rw [hinner] at hsc
        have hlr : l = a.buf.getD i ' ' :: l' ∧ r = r' := by
          refine ⟨?_, ?_⟩ <;> injection hsc with h <;> injection h with h1 h2
          · exact h1.symm
          · exact h2.symm
        obtain ⟨h1, h2, h3, h4⟩ := ih'.2 l' r' hinner
        refine ⟨?_, h2, ?_, h4⟩
        · rw [h1, lineSlice_succ a.buf a.pos i hpi hi', hlr.1]
          simp
        · rw [h3, hlr.2]
  | case4 a i comma inStr whole h0 hi ih =>
    intro hv hpi his
    have hieq : i = a.size := Nat.le_antisymm his (Nat.not_lt.1 hi)
    have hdropnil : a.buf.drop i = [] := by
      rw [hieq, hv.1]
      exact List.drop_length _
    have hscrut : a.buf.drop i ++ a.rest = a.rest := by rw [hdropnil]; rfl
    have hvalid' : validBuf B (read_one_buffer B a) := by
      refine ⟨rfl, ?_, ?_, Nat.zero_le _⟩
      · simp only [read_one_buffer, List.length_take]
        exact min_le_left _ _
      · intro hlt
        simp only [read_one_buffer, List.length_take] at hlt ⊢
        have : a.rest.length < B := by omega
        exact List.drop_eq_nil_of_le (Nat.le_of_lt this)
    have hscrut' : (read_one_buffer B a).buf.drop (read_one_buffer B a).pos ++
        (read_one_buffer B a).rest = a.rest := by
      simp only [read_one_buffer, List.drop_zero]
      exact List.take_append_drop B a.rest
    have ih' := ih hvalid' (Nat.le_refl _) (Nat.zero_le _)
    rw [extractLoop, if_neg h0, if_neg hi]
    constructor
    · intro hsc
      rw [hscrut] at hsc
      refine ih'.1 ?_
      have h00 : (read_one_buffer B a).pos = 0 := rfl
      rw [show (read_one_buffer B a).buf.drop 0 ++ (read_one_buffer B a).rest = a.rest from by
        simpa using hscrut']
      exact hsc
    · intro l r hsc
      rw [hscrut] at hsc
      have hsc2 : refScan ((read_one_buffer B a).buf.drop 0 ++ (read_one_buffer B a).rest)
          comma inStr = some (l, r) := by
        rw [show (read_one_buffer B a).buf.drop 0 ++ (read_one_buffer B a).rest = a.rest from by
          simpa using hscrut']
        exact hsc
      obtain ⟨h1, h2, h3, h4⟩ := ih'.2 l r hsc2
      refine ⟨?_, h2, h3, h4⟩
      rw [h1]
      have h5 : lineSlice (read_one_buffer B a).buf (read_one_buffer B a).pos 0 = [] :=
        lineSlice_self _ _
      rw [h5]
      simp

theorem get_lines_spec (B : Nat) (hB : 1 ≤ B) :
    ∀ (n : Nat) (a : Buffer), validBuf B a → (bufContent a).length ≤ n →
      get_lines B a = refLines (bufContent a) := by
  intro n
  induction n with
  | zero =>
    intro a hv hlen
    have hc : bufContent a = [] := List.length_eq_zero.1 (Nat.le_zero.1 hlen)
    have hsc : refScan (a.buf.drop a.pos ++ a.rest) 0 false = none := by
      rw [show a.buf.drop a.pos ++ a.rest = ([] : List Char) from hc]
      rfl
    have hz := (extractLoop_spec B hB a a.pos 0 false [] hv (Nat.le_refl _) hv.2.2.2).1 hsc
    rw [get_lines, extract_one_line_from_buffer, if_pos hz, refLines_none _ (by rw [hc]; rfl)]
  | succ n ihn =>
    intro a hv hlen
    rcases hsc : refScan (bufContent a) 0 false with _ | ⟨l, r⟩
    · have hz := (extractLoop_spec B hB a a.pos 0 false [] hv (Nat.le_refl _) hv.2.2.2).1 hsc
      rw [get_lines, extract_one_line_from_buffer, if_pos hz, refLines_none _ hsc]
    · obtain ⟨h1, h2, h3, h4⟩ :=
        (extractLoop_spec B hB a a.pos 0 false [] hv (Nat.le_refl _) hv.2.2.2).2 l r hsc
      rw [get_lines, extract_one_line_from_buffer, if_neg h4]
      rw [refLines_some _ l r hsc]
      have hline : (extractLoop B a a.pos 0 false []).1 = l := by
        rw [h1, lineSlice_self]
        rfl
      rw [hline]
      congr 1
      have hrlen : r.length ≤ n := by
        have := refScan_some_length (bufContent a) 0 false l r hsc
        omega
      have := ihn (extractLoop B a a.pos 0 false []).2 h2 (by rw [h3]; exact hrlen)
      rw [this, h3]

theorem file_lines_eq_refLines (content : List Char) (B : Nat) (hB : 1 ≤ B) :
    file_lines B content = refLines content := by
  have hvalid : validBuf B (read_one_buffer B { buf := [], size := 0, pos := 0, rest := content }) := by
    refine ⟨rfl, ?_, ?_, Nat.zero_le _⟩
    · simp only [read_one_buffer, List.length_take]
      exact min_le_left _ _
    · intro hlt
      simp only [read_one_buffer, List.length_take] at hlt ⊢
      exact List.drop_eq_nil_of_le (by omega)
  have hcontent : bufContent (read_one_buffer B { buf := [], size := 0, pos := 0, rest := content }) =
      content := by
    simp only [bufContent, read_one_buffer, List.drop_zero]
    exact List.take_append_drop B content
  rw [file_lines, get_lines_spec B hB (content.length) _ hvalid (by rw [hcontent]), hcontent]

/-- A concrete journal content used to witness the parser equivalence:
two complete records (the second with a quoted field holding commas and a
newline) and a trailing incomplete line. -/
def c2_content : List Char :=
  ("1,2,3,4,5,6,7,8,9,10,11,12,x\nb,\"q,,,,\n,,,,,,,,,w\",3,4,5,6,7,8,9,10,11,12,y\ntail").toList

/-- C2.  For every journal content and every buffer size B at least 1,
the streaming parser (`extract_one_line_from_buffer` over buffers
refilled by `read_one_buffer`, driven as in
`get_file_list_from_regex_and_query`) delivers exactly the lines of the
reference scan `refLines`, which closes a line exactly at a newline
outside a double-quoted region after at least 12 unquoted commas; in
particular the delivered lines agree with parsing the whole content in
one buffer, wherever the buffer boundaries fall. -/
theorem streaming_parser_buffer_equivalence (content : List Char) (B : Nat) (hB : 1 ≤ B) :
    file_lines B content = refLines content ∧
    file_lines B content = file_lines (content.length + 1) content := by
  refine ⟨file_lines_eq_refLines content B hB, ?_⟩
  rw [file_lines_eq_refLines content B hB,
    file_lines_eq_refLines content (content.length + 1) (by omega)]

/-- Witness for C2 at a concrete journal content and buffer size 3. -/
theorem streaming_parser_buffer_equivalence_witness :
    1 ≤ 3 ∧
    (file_lines 3 c2_content = refLines c2_content ∧
      file_lines 3 c2_content = file_lines (c2_content.length + 1) c2_content) :=
  ⟨by decide, streaming_parser_buffer_equivalence c2_content 3 (by decide)⟩
/- ===================== HTTP dispatcher (GET side) ===================== -/

/-- HTTP status code constants of libmicrohttpd used by server.c. -/
def MHD_HTTP_OK : Nat := 200

/-- HTTP 400. -/
def MHD_HTTP_BAD_REQUEST : Nat := 400

/-- HTTP 404. -/
def MHD_HTTP_NOT_FOUND : Nat := 404

/-- HTTP 500. -/
def MHD_HTTP_INTERNAL_SERVER_ERROR : Nat := 500

/-- A handler answer: a JSON payload, or the JSON error envelope
`{error_code, reason}` built by `answer_json_error_string`
(the human-readable reason text is elided from the model). -/
inductive Answer where
  | payload (body : List Char)
  | error (code : Nat)
deriving DecidableEq

/-- Modelled from the spec: `answer_json_error_string` builds the JSON
error envelope carrying the error code. -/
def answer_json_error_string (code : Nat) : Answer := Answer.error code

/-- The pieces of the GET pipeline that the claims do not inspect:
answers of the other routes, the backend retrieve function used by the
`/Data/` route (the file backend always provides one, see
`init_server_main_structure`, server.c:136), and the serializer
`convert_hash_data_t_to_string`. -/
structure GetEnv where
  version_json : List Char
  version_text : List Char
  stats_json : List Char
  file_list_answer : Answer
  hash_array_answer : Answer
  retrieve : List Char → Option HashData
  serialize : HashData → List Char

/-- `get_data_from_a_specific_hash` (server.c:148-181): retrieve the
block for a hex hash and serialize it; when nothing comes back the
answer is the error envelope with code 500. -/
def get_data_from_a_specific_hash (env : GetEnv) (hash : List Char) : Answer :=
  match env.retrieve hash with
  | some hd => Answer.payload (env.serialize hd)
  | none => answer_json_error_string MHD_HTTP_INTERNAL_SERVER_ERROR

/-- The character set `"abcdef0123456789"` kept by the `g_strcanon` call
of `get_json_answer` (server.c:539). -/
def isHexLower (c : Char) : Bool := ("abcdef0123456789".toList).contains c

/-- `get_json_answer` (server.c:505-565): route a GET .json url by
prefix.  For `/Data/<segment>.json` the code takes the first 64
characters after `/Data/` (`g_strndup(url + 6, HASH_LEN*2)`), overwrites
every character outside `[0-9a-f]` with NUL (`g_strcanon`), and measures
the C string length of the result, which is the longest hex prefix of
the captured segment; when that length is 64 the lookup proceeds,
otherwise the answer is a 400 envelope.  An url matching nothing is
answered with a 404 envelope. -/
def get_json_answer (env : GetEnv) (url : List Char) : Answer :=
  if ("/Version.json".toList).isPrefixOf url then Answer.payload env.version_json
  else if ("/Stats.json".toList).isPrefixOf url then Answer.payload env.stats_json
  else if ("/File/List.json".toList).isPrefixOf url then env.file_list_answer
  else if ("/Data/Hash_Array.json".toList).isPrefixOf url then env.hash_array_answer
  else if ("/Data/".toList).isPrefixOf url then
    if (((url.drop 6).take 64).takeWhile isHexLower).length = 64 then
      get_data_from_a_specific_hash env (((url.drop 6).take 64).takeWhile isHexLower)
    else answer_json_error_string MHD_HTTP_BAD_REQUEST
  else answer_json_error_string MHD_HTTP_NOT_FOUND

/-- `get_unformatted_answer` (server.c:577-606): `/Version` answers the
program and library versions, everything else a plain-text echo (both
plain payloads, no JSON envelope; the texts are elided). -/
def get_unformatted_answer (env : GetEnv) (url : List Char) : Answer :=
  if url = ("/Version".toList) then Answer.payload env.version_text
  else Answer.payload []

/-- The response record assembled by `create_MHD_response`. -/
structure MHDResponse where
  status : Nat
  body : Answer
  content_type : List Char
deriving DecidableEq

/-- Content type for .json routes. -/
def CT_JSON : List Char := ("application/json; charset=utf-8").toList

/-- Content type for the other routes. -/
def CT_PLAIN : List Char := ("text/plain; charset=utf-8").toList

/-- `create_MHD_response` (server.c:618-636): queue the answer with the
given content type (default text/plain) and, always, HTTP status
`MHD_HTTP_OK`. -/
def create_MHD_response (answer : Answer) (content_type : Option (List Char)) : MHDResponse :=
  { status := MHD_HTTP_OK,
    body := answer,
    content_type := match content_type with | some ct => ct | none => CT_PLAIN }

/-- `process_get_request` (server.c:647-703), the answering call: a url
ending in .json is answered by `get_json_answer` with the JSON content
type, any other by `get_unformatted_answer` with the plain content type;
either answer is sent through `create_MHD_response`. -/
def process_get_request (env : GetEnv) (url : List Char) : MHDResponse :=
  if (".json".toList).isSuffixOf url then
    create_MHD_response (get_json_answer env url) (some CT_JSON)
  else
    create_MHD_response (get_unformatted_answer env url) (some CT_PLAIN)

/-- A concrete environment for the dispatcher theorems: every parametric
answer is an empty payload and the store is empty. -/
def c4_env : GetEnv :=
  { version_json := [], version_text := [], stats_json := [],
    file_list_answer := Answer.payload [], hash_array_answer := Answer.payload [],
    retrieve := fun _ => none, serialize := fun _ => [] }

/-- C4 counterexample.  A GET for the unknown route `/unknown.json`
produces the JSON error envelope with code 404, yet the HTTP response is
queued with status 200, not 404. -/
theorem error_envelope_status_mismatch :
    get_json_answer c4_env ("/unknown.json".toList) =
      answer_json_error_string MHD_HTTP_NOT_FOUND ∧
    (create_MHD_response (get_json_answer c4_env ("/unknown.json".toList))
        (some CT_JSON)).status ≠ MHD_HTTP_NOT_FOUND := by
  constructor
  · rfl
  · decide

/-- C4 (amended).  `create_MHD_response` queues every response with HTTP
status 200 (`MHD_HTTP_OK`); an error answer carries its error code only
inside the JSON envelope, so the HTTP status of the whole GET pipeline
is 200 whatever the route. -/
theorem http_response_status_always_ok (env : GetEnv) (url : List Char)
    (answer : Answer) (content_type : Option (List Char)) :
    (create_MHD_response answer content_type).status = MHD_HTTP_OK ∧
    (process_get_request env url).status = MHD_HTTP_OK := by
  refine ⟨rfl, ?_⟩
  rw [process_get_request]
  by_cases h : ((".json".toList).isSuffixOf url : Bool)
  · rw [if_pos h]; rfl
  · rw [if_neg h]; rfl

theorem filter_len_eq_iff_all (p : Char → Bool) :
    ∀ l : List Char, ((l.filter p).length = l.length ↔ ∀ x ∈ l, p x = true) := by
  intro l
  induction l with
  | nil => simp
  | cons c t ih =>
    by_cases hc : p c = true
    · simp only [List.filter_cons, hc, if_true, List.length_cons]
      constructor
      · intro h x hx
        rcases List.mem_cons.1 hx with h1 | h1
        · subst h1; exact hc
        · exact (ih.1 (by omega)) x h1
      · intro h
        have := ih.2 (fun x hx => h x (List.mem_cons_of_mem c hx))
        omega
    · have hle := List.length_filter_le p t
      simp only [List.filter_cons, hc]
      constructor
      · intro h
        exfalso
        simp only [List.length_cons] at h
        rw [if_neg (by simp [hc])] at h
        omega
      · intro h
        exact absurd (h c (by simp)) (by simp [hc])

theorem takeWhile_all (p : Char → Bool) :
    ∀ l : List Char, (∀ x ∈ l, p x = true) → l.takeWhile p = l := by
  intro l h
  induction l with
  | nil => rfl
  | cons c t ih =>
    rw [List.takeWhile_cons, if_pos (h c (by simp))]
    rw [ih (fun x hx => h x (List.mem_cons_of_mem c hx))]

theorem takeWhile_filter_64 (p : Char → Bool) (l : List Char) (hlen : l.length ≤ 64) :
    (l.takeWhile p).length = 64 ↔ (l.filter p).length = 64 := by
  constructor
  · intro h
    have hpre := List.takeWhile_prefix (l := l) p
    have h1 : (l.takeWhile p).length ≤ l.length := hpre.length_le
    have h2 : l.length = 64 := by omega
    have heq : l.takeWhile p = l := hpre.eq_of_length (by omega)
    have hall : ∀ x ∈ l, p x = true := fun x hx =>
      List.mem_takeWhile_imp (l := l) (heq.symm ▸ hx)
    rw [(filter_len_eq_iff_all p l).2 hall, h2]
  · intro h
    have h1 : (l.filter p).length ≤ l.length := List.length_filter_le p l
    have h2 : l.length = 64 := by omega
    have hall : ∀ x ∈ l, p x = true := (filter_len_eq_iff_all p l).1 (by omega)
    rw [takeWhile_all p l hall, h2]

theorem get_data_never_bad_request (env : GetEnv) (h : List Char) :
    get_data_from_a_specific_hash env h ≠ answer_json_error_string MHD_HTTP_BAD_REQUEST := by
  rw [get_data_from_a_specific_hash]
  cases hr : env.retrieve h with
  | none =>
    intro hc
    have : MHD_HTTP_INTERNAL_SERVER_ERROR = MHD_HTTP_BAD_REQUEST := by
      injection hc
    exact absurd this (by decide)
  | some hd =>
    intro hc
    exact Answer.noConfusion hc

/-- C7.  For a GET url under `/Data/` (other than
`/Data/Hash_Array.json`), the answer is the 400 (BadRequest) envelope
exactly when the captured segment (the first 64 characters after
`/Data/`) does not consist of 64 hex characters — that is, when
stripping non-`[0-9a-f]` characters leaves fewer than 64 — and when all
64 characters are hex the block lookup proceeds on that hex hash. -/
theorem data_url_hash_validation (env : GetEnv) (url : List Char)
    (hdata : (("/Data/".toList).isPrefixOf url) = true)
    (hnotarr : (("/Data/Hash_Array.json".toList).isPrefixOf url) = false) :
    ((((url.drop 6).take 64).filter isHexLower).length ≠ 64 →
      get_json_answer env url = answer_json_error_string MHD_HTTP_BAD_REQUEST) ∧
    ((((url.drop 6).take 64).filter isHexLower).length = 64 →
      get_json_answer env url = get_data_from_a_specific_hash env ((url.drop 6).take 64)) ∧
    (get_json_answer env url = answer_json_error_string MHD_HTTP_BAD_REQUEST →
      (((url.drop 6).take 64).filter isHexLower).length ≠ 64) := by
  obtain ⟨t, ht⟩ := List.isPrefixOf_iff_prefix.1 hdata
  have hv1 : (("/Version.json".toList).isPrefixOf url) = false := by rw [← ht]; rfl
  have hv2 : (("/Stats.json".toList).isPrefixOf url) = false := by rw [← ht]; rfl
  have hv3 : (("/File/List.json".toList).isPrefixOf url) = false := by rw [← ht]; rfl
  have hcaplen : ((url.drop 6).take 64).length ≤ 64 := by
    rw [List.length_take]
    exact min_le_left _ _
  have hiff := takeWhile_filter_64 isHexLower ((url.drop 6).take 64) hcaplen
  have hred : get_json_answer env url =
      (if (((url.drop 6).take 64).takeWhile isHexLower).length = 64 then
        get_data_from_a_specific_hash env (((url.drop 6).take 64).takeWhile isHexLower)
      else answer_json_error_string MHD_HTTP_BAD_REQUEST) := by
    rw [get_json_answer, hv1, hv2, hv3, hnotarr, hdata]
    simp
  refine ⟨?_, ?_, ?_⟩
  · intro hne
    have htw : ¬((((url.drop 6).take 64).takeWhile isHexLower).length = 64) := by
      intro hc
      exact hne (hiff.1 hc)
    rw [hred, if_neg htw]
  · intro heq
    have htw : (((url.drop 6).take 64).takeWhile isHexLower).length = 64 := hiff.2 heq
    have heqcap : ((url.drop 6).take 64).takeWhile isHexLower = (url.drop 6).take 64 := by
      refine (List.takeWhile_prefix isHexLower).eq_of_length ?_
      have := (List.takeWhile_prefix (l := (url.drop 6).take 64) isHexLower).length_le
      omega
    rw [hred, if_pos htw, heqcap]
  · intro herr hlen
    have htw : (((url.drop 6).take 64).takeWhile isHexLower).length = 64 := hiff.2 hlen
    rw [hred, if_pos htw] at herr
    exact get_data_never_bad_request env _ herr

/-- A concrete valid url for the C7 witness: 64 hex characters after
`/Data/`. -/
def c7_url : List Char :=
  ("/Data/".toList) ++ List.replicate 64 'a' ++ (".json".toList)

/-- Witness for C7 at a concrete url whose captured segment is 64 hex
characters. -/
theorem data_url_hash_validation_witness :
    (("/Data/".toList).isPrefixOf c7_url) = true ∧
    (("/Data/Hash_Array.json".toList).isPrefixOf c7_url) = false ∧
    (((((c7_url.drop 6).take 64).filter isHexLower).length ≠ 64 →
        get_json_answer c4_env c7_url = answer_json_error_string MHD_HTTP_BAD_REQUEST) ∧
      ((((c7_url.drop 6).take 64).filter isHexLower).length = 64 →
        get_json_answer c4_env c7_url =
          get_data_from_a_specific_hash c4_env ((c7_url.drop 6).take 64)) ∧
      (get_json_answer c4_env c7_url = answer_json_error_string MHD_HTTP_BAD_REQUEST →
        (((c7_url.drop 6).take 64).filter isHexLower).length ≠ 64)) :=
  ⟨by decide, by decide, data_url_hash_validation c4_env c7_url (by decide) (by decide)⟩

/-- A concrete block for the C3 witness. -/
def c3_hd : HashData :=
  { hash := [0, 17, 255], data := [104, 101, 108, 108, 111], read := 5,
    cmptype := COMPRESS_NONE_TYPE, uncmplen := 5 }

/-- A concrete backend for the C3 witness. -/
def c3_fb : FileBackend := { prefix2 := [], level := 2 }

/-- An empty filesystem for the C3 witness. -/
def c3_fs : FileSystem := { data := fun _ => none, fmeta := fun _ => none }

/-- Witness for C3 at a concrete block. -/
theorem file_store_then_retrieve_witness :
    (∀ b ∈ c3_hd.hash, b < 256) ∧ c3_hd.cmptype = COMPRESS_NONE_TYPE ∧
    c3_hd.uncmplen = (c3_hd.data.length : Int) ∧ c3_hd.read = c3_hd.data.length ∧
    file_retrieve_data c3_fb (file_store_data c3_fb c3_fs c3_hd) (hash_to_string c3_hd.hash) =
      some { hash := c3_hd.hash, data := c3_hd.data, read := c3_hd.data.length,
             cmptype := COMPRESS_NONE_TYPE, uncmplen := (c3_hd.data.length : Int) } :=
  ⟨by decide, rfl, by decide, rfl,
    file_store_then_retrieve c3_fb c3_fs c3_hd (by decide) rfl (by decide) rfl⟩

/- ===================== C6: batch retrieval /Data/Hash_Array.json ===================== -/

/-- The while loop of `get_data_from_a_list_of_hashs` (server.c:345-385):
walk the hashes of the `X-Get-Hash-Array` header; for each stored block,
append its payload (uncompressing first unless its compression type is
`COMPRESS_NONE_TYPE`) to the accumulated buffer and add the payload
length to the accumulated size.  A block that is not stored is skipped;
a failed uncompression leaves the buffer unchanged but still adds the
stale previous `buffer_len` to the size (as the C does).  The
uncompression codec is opaque and passed as `uncmp`. -/
def get_data_loop (fb : FileBackend) (fs : FileSystem)
    (uncmp : List Nat → Nat → Int → Int → Option (List Nat)) :
    List (List Nat) → List Nat → Nat → Nat → List Nat × Nat
  | [], final, size, _ => (final, size)
  | h :: t, final, size, buffer_len =>
    match file_retrieve_data fb fs (hash_to_string h) with
    | none => get_data_loop fb fs uncmp t final size buffer_len
    | some hd =>
      if hd.cmptype = COMPRESS_NONE_TYPE then
        get_data_loop fb fs uncmp t (final ++ hd.data.take hd.read) (size + hd.read) hd.read
      else
        match uncmp hd.data hd.read hd.uncmplen hd.cmptype with
        | some p => get_data_loop fb fs uncmp t (final ++ p) (size + p.length) p.length
        | none => get_data_loop fb fs uncmp t final (size + buffer_len) buffer_len

/-- `get_data_from_a_list_of_hashs` (server.c:320-399): run the loop on
the parsed header hashes, then synthesize one block: a new hash
(`calculate_hash_for_string`, passed opaquely as `hashFn`) over the
accumulated buffer, the buffer as data, the accumulated size, and
`cmptype = COMPRESS_NONE_TYPE` with `uncmplen = size`. -/
def get_data_from_a_list_of_hashs (fb : FileBackend) (fs : FileSystem)
    (uncmp : List Nat → Nat → Int → Int → Option (List Nat))
    (hashFn : List Nat → List Nat) (header : List (List Nat)) : HashData :=
  { hash := hashFn (get_data_loop fb fs uncmp header [] 0 0).1,
    data := (get_data_loop fb fs uncmp header [] 0 0).1,
    read := (get_data_loop fb fs uncmp header [] 0 0).2,
    cmptype := COMPRESS_NONE_TYPE,
    uncmplen := ((get_data_loop fb fs uncmp header [] 0 0).2 : Int) }

/-- The payload a stored block contributes: its bytes as stored when its
compression type is `COMPRESS_NONE_TYPE`, its uncompression otherwise. -/
def blockPayload (uncmp : List Nat → Nat → Int → Int → Option (List Nat))
    (hd : HashData) : Option (List Nat) :=
  if hd.cmptype = COMPRESS_NONE_TYPE then some (hd.data.take hd.read)
  else uncmp hd.data hd.read hd.uncmplen hd.cmptype

/-- The concatenation of the payloads of a list of hashes, defined when
every hash is stored and every compressed block uncompresses. -/
def payloadConcat (fb : FileBackend) (fs : FileSystem)
    (uncmp : List Nat → Nat → Int → Int → Option (List Nat)) :
    List (List Nat) → Option (List Nat)
  | [] => some []
  | h :: t =>
    match file_retrieve_data fb fs (hash_to_string h) with
    | none => none
    | some hd =>
      match blockPayload uncmp hd, payloadConcat fb fs uncmp t with
      | some p, some rest => some (p ++ rest)
      | _, _ => none

theorem file_retrieve_data_read_eq (fb : FileBackend) (fs : FileSystem)
    (hex : List Char) (hd : HashData) (h : file_retrieve_data fb fs hex = some hd) :
    hd.read = hd.data.length := by
  rw [file_retrieve_data] at h
  cases hfs : fs.data (build_filename_from_hash
      (make_path_from_hash (fb.prefix2 ++ slashData) (string_to_hash hex) fb.level)
      hex fb.level) with
  | none => rw [hfs] at h; exact absurd h (by simp)
  | some bytes =>
    rw [hfs] at h
    have := Option.some.inj h
    rw [← this]

theorem get_data_loop_eq (fb : FileBackend) (fs : FileSystem)
    (uncmp : List Nat → Nat → Int → Int → Option (List Nat)) :
    ∀ (t : List (List Nat)) (concat final : List Nat) (size buffer_len : Nat),
      payloadConcat fb fs uncmp t = some concat →
      get_data_loop fb fs uncmp t final size buffer_len =
        (final ++ concat, size + concat.length) := by
  intro t
  induction t with
  | nil =>
    intro concat final size buffer_len h
    have : concat = [] := (Option.some.inj h).symm
    subst this
    simp [get_data_loop]
  | cons h t ih =>
    intro concat final size buffer_len hall
    rw [payloadConcat] at hall
    cases hret : file_retrieve_data fb fs (hash_to_string h) with
    | none => simp only [hret] at hall; exact Option.noConfusion hall
    | some hd =>
      simp only [hret] at hall
      have hread : hd.read = hd.data.length := file_retrieve_data_read_eq fb fs _ hd hret
      cases hpay : blockPayload uncmp hd with
      | none => simp only [hpay] at hall; exact Option.noConfusion hall
      | some p =>
        simp only [hpay] at hall
        cases hrest : payloadConcat fb fs uncmp t with
        | none => simp only [hrest] at hall; exact Option.noConfusion hall
        | some rest =>
          simp only [hrest, Option.some.injEq] at hall
          have hcc : concat = p ++ rest := hall.symm
          subst hcc
          rw [get_data_loop]
          simp only [hret]
          by_cases hcmp : hd.cmptype = COMPRESS_NONE_TYPE
          · rw [if_pos hcmp]
            have hp : p = hd.data.take hd.read := by
              rw [blockPayload, if_pos hcmp] at hpay
              exact (Option.some.inj hpay).symm
            have hplen : hd.read = p.length := by
              rw [hp, List.length_take, hread]
              exact (min_self _).symm
            rw [ih rest _ _ _ hrest, ← hp, hplen]
            simp [List.append_assoc, List.length_append, Nat.add_assoc]
          · rw [if_neg hcmp]
            have hu : uncmp hd.data hd.read hd.uncmplen hd.cmptype = some p := by
              rw [blockPayload, if_neg hcmp] at hpay
              exact hpay
            simp only [hu]
            rw [ih rest _ _ _ hrest]
            simp [List.append_assoc, List.length_append, Nat.add_assoc]

/-- C6.  When every hash of the `X-Get-Hash-Array` header names a stored
block (and every compressed one uncompresses), the answer of GET
/Data/Hash_Array.json is one synthesized block whose data is the
concatenation of the per-block payloads after uncompressing each
compressed block, whose hash is computed over that concatenation, whose
cmptype is `COMPRESS_NONE_TYPE`, and whose uncmplen equals the size of
the concatenation. -/
theorem hash_array_get_synthesizes_block (fb : FileBackend) (fs : FileSystem)
    (uncmp : List Nat → Nat → Int → Int → Option (List Nat))
    (hashFn : List Nat → List Nat) (header : List (List Nat)) (concat : List Nat)
    (hall : payloadConcat fb fs uncmp header = some concat) :
    get_data_from_a_list_of_hashs fb fs uncmp hashFn header =
      { hash := hashFn concat, data := concat, read := concat.length,
        cmptype := COMPRESS_NONE_TYPE, uncmplen := (concat.length : Int) } := by
  have hloop := get_data_loop_eq fb fs uncmp header concat [] 0 0 hall
  rw [get_data_from_a_list_of_hashs, hloop]
  simp

/-- A concrete backend for the C6 witness. -/
def c6_fb : FileBackend := { prefix2 := [], level := 2 }

/-- A concrete stored block for the C6 witness. -/
def c6_hd : HashData :=
  { hash := [1, 2], data := [9, 8, 7], read := 3,
    cmptype := COMPRESS_NONE_TYPE, uncmplen := 3 }

/-- The filesystem of the C6 witness: one stored block. -/
def c6_fs : FileSystem :=
  file_store_data c6_fb { data := fun _ => none, fmeta := fun _ => none } c6_hd

/-- An opaque codec that never succeeds (no compressed block occurs in
the witness). -/
def c6_uncmp : List Nat → Nat → Int → Int → Option (List Nat) := fun _ _ _ _ => none

/-- The opaque hash function of the C6 witness. -/
def c6_hashFn : List Nat → List Nat := fun l => l

/-- Witness for C6 at a concrete one-block store. -/
theorem hash_array_get_synthesizes_block_witness :
    payloadConcat c6_fb c6_fs c6_uncmp [[1, 2]] = some [9, 8, 7] ∧
    get_data_from_a_list_of_hashs c6_fb c6_fs c6_uncmp c6_hashFn [[1, 2]] =
      { hash := c6_hashFn [9, 8, 7], data := [9, 8, 7], read := 3,
        cmptype := COMPRESS_NONE_TYPE, uncmplen := (3 : Int) } :=
  ⟨by decide,
    hash_array_get_synthesizes_block c6_fb c6_fs c6_uncmp c6_hashFn
      [[1, 2]] [9, 8, 7] (by decide)⟩

/- ===================== C5: latest-version reduction ===================== -/

/-- A journal record as the query pipeline sees it: the decoded file
name, the mtime, and the record's journal position (order of appearance
in the host log). -/
structure MetaRec where
  name : List Char
  mtime : Nat
  pos : Nat
deriving DecidableEq

/-- Modelled from the spec: byte-wise lexicographic comparison of names,
used by the sort comparator. -/
def charListLe : List Char → List Char → Bool
  | [], _ => true
  | _ :: _, [] => false
  | a :: as, b :: bs => if a = b then charListLe as bs else decide (a.toNat < b.toNat)

/-- Modelled from the spec: `compare_meta_data_t`, the stable sort
comparator on (name ASC, mtime ASC) used by `file_get_list_of_files`
(file_backend.c:949). -/
def compare_meta_data_t (a b : MetaRec) : Bool :=
  if a.name = b.name then decide (a.mtime ≤ b.mtime) else charListLe a.name b.name

/-- Modelled from the spec: record `r` is at least as recent as `s` -- a
later mtime, or an equal mtime and a journal position at least as
late. -/
def latest_ge (r s : MetaRec) : Bool :=
  decide (s.mtime < r.mtime ∨ (s.mtime = r.mtime ∧ s.pos ≤ r.pos))

/-- Modelled from the spec: `keep_latests_meta_data_t_in_list`
(file_backend.c:954) retains, for each unique name, only the record with
the maximum mtime, ties broken in favor of the later journal
position. -/
def keep_latests_meta_data_t_in_list (l : List MetaRec) : List MetaRec :=
  l.filter (fun r => l.all (fun s => !(s.name == r.name) || latest_ge r s))

/-- The list pipeline of `file_get_list_of_files`
(file_backend.c:938-961): the scan prepends matching records (so the
built list reverses journal order), the list is sorted once with
`compare_meta_data_t`, and with `latest = true` the latest reduction is
applied. -/
def file_get_list_of_files (latest : Bool) (scan : List MetaRec) : List MetaRec :=
  if latest then
    keep_latests_meta_data_t_in_list (List.mergeSort scan.reverse compare_meta_data_t)
  else
    List.mergeSort scan.reverse compare_meta_data_t

theorem latest_ge_refl (a : MetaRec) : latest_ge a a = true := by
  simp [latest_ge]

theorem latest_ge_total (a b : MetaRec) : latest_ge a b = true ∨ latest_ge b a = true := by
  simp only [latest_ge, decide_eq_true_eq]
  omega

theorem latest_ge_trans (a b c : MetaRec) (h1 : latest_ge a b = true)
    (h2 : latest_ge b c = true) : latest_ge a c = true := by
  simp only [latest_ge, decide_eq_true_eq] at *
  omega

theorem exists_latest (n : List Char) :
    ∀ l : List MetaRec, (∃ r ∈ l, r.name = n) →
      ∃ r ∈ l, r.name = n ∧ ∀ s ∈ l, s.name = n → latest_ge r s = true := by
  intro l
  induction l with
  | nil => rintro ⟨r, hr, _⟩; exact absurd hr (List.not_mem_nil r)
  | cons a t ih =>
    intro hex
    by_cases hta : ∃ r ∈ t, r.name = n
    · obtain ⟨r, hrmem, hrname, hrmax⟩ := ih hta
      by_cases han : a.name = n
      · rcases latest_ge_total r a with hge | hge
        · refine ⟨r, List.mem_cons_of_mem a hrmem, hrname, fun s hs hsn => ?_⟩
          rcases List.mem_cons.1 hs with h1 | h1
          · subst h1; exact hge
          · exact hrmax s h1 hsn
        · refine ⟨a, List.mem_cons_self a t, han, fun s hs hsn => ?_⟩
          rcases List.mem_cons.1 hs with h1 | h1
          · rw [h1]; exact latest_ge_refl a
          · exact latest_ge_trans a r s hge (hrmax s h1 hsn)
      · refine ⟨r, List.mem_cons_of_mem a hrmem, hrname, fun s hs hsn => ?_⟩
        rcases List.mem_cons.1 hs with h1 | h1
        · subst h1; exact absurd hsn han
        · exact hrmax s h1 hsn
    · obtain ⟨r0, hr0, hr0n⟩ := hex
      have har : a.name = n := by
        rcases List.mem_cons.1 hr0 with h1 | h1
        · subst h1; exact hr0n
        · exact absurd ⟨r0, h1, hr0n⟩ hta
      refine ⟨a, List.mem_cons_self a t, har, fun s hs hsn => ?_⟩
      rcases List.mem_cons.1 hs with h1 | h1
      · rw [h1]; exact latest_ge_refl a
      · exact absurd ⟨s, h1, hsn⟩ hta

theorem pos_inj (l : List MetaRec) (h : l.Pairwise (fun a b => a.pos < b.pos)) :
    ∀ x ∈ l, ∀ y ∈ l, x.pos = y.pos → x = y := by
  induction l with
  | nil => intro x hx; exact absurd hx (List.not_mem_nil x)
  | cons a t ih =>
    have ha := (List.pairwise_cons.1 h).1
    have ht := (List.pairwise_cons.1 h).2
    intro x hx y hy hxy
    rcases List.mem_cons.1 hx with h1 | h1 <;> rcases List.mem_cons.1 hy with h2 | h2
    · subst h1; subst h2; rfl
    · subst h1; exact absurd hxy (by have := ha y h2; omega)
    · subst h2; exact absurd hxy (by have := ha x h1; omega)
    · exact ih ht x h1 y h2 hxy

theorem mem_sorted_iff (scan : List MetaRec) (x : MetaRec) :
    x ∈ List.mergeSort scan.reverse compare_meta_data_t ↔ x ∈ scan := by
  rw [(List.mergeSort_perm scan.reverse compare_meta_data_t).mem_iff, List.mem_reverse]

theorem mem_keep_latests (l : List MetaRec) (x : MetaRec) :
    x ∈ keep_latests_meta_data_t_in_list l ↔
      x ∈ l ∧ ∀ s ∈ l, s.name = x.name → latest_ge x s = true := by
  rw [keep_latests_meta_data_t_in_list, List.mem_filter]
  constructor
  · rintro ⟨hm, hall⟩
    refine ⟨hm, fun s hs hsn => ?_⟩
    have := (List.all_eq_true.1 hall) s hs
    rcases Bool.or_eq_true_iff.1 this with h1 | h1
    · exact absurd (by simpa using hsn) (by simpa using h1)
    · exact h1
  · rintro ⟨hm, hall⟩
    refine ⟨hm, List.all_eq_true.2 (fun s hs => ?_)⟩
    by_cases hsn : s.name = x.name
    · exact Bool.or_eq_true_iff.2 (Or.inr (hall s hs hsn))
    · exact Bool.or_eq_true_iff.2 (Or.inl (by simpa using hsn))

/-- C5.  For a query with latest = true, the result of the
`file_get_list_of_files` pipeline retains, for each unique name
occurring in the filtered scan, exactly one record: one of the scan
records bearing that name, with the maximum mtime among them, ties
broken in favor of the later journal position. -/
theorem latest_reduction_unique_max (scan : List MetaRec)
    (hpos : scan.Pairwise (fun a b => a.pos < b.pos)) (n : List Char)
    (hn : ∃ r ∈ scan, r.name = n) :
    ∃ r, r ∈ file_get_list_of_files true scan ∧ r.name = n ∧ r ∈ scan ∧
      (∀ s ∈ scan, s.name = n → s.mtime ≤ r.mtime) ∧
      (∀ s ∈ scan, s.name = n → s.mtime = r.mtime → s.pos ≤ r.pos) ∧
      (∀ s, s ∈ file_get_list_of_files true scan → s.name = n → s = r) := by
  obtain ⟨r, hrmem, hrname, hrmax⟩ := exists_latest n scan hn
  have hpipe : file_get_list_of_files true scan =
      keep_latests_meta_data_t_in_list (List.mergeSort scan.reverse compare_meta_data_t) := by
    rw [file_get_list_of_files, if_pos rfl]
  have hrk : r ∈ file_get_list_of_files true scan := by
    rw [hpipe, mem_keep_latests]
    refine ⟨(mem_sorted_iff scan r).2 hrmem, fun s hs hsn => ?_⟩
    exact hrmax s ((mem_sorted_iff scan s).1 hs) (hsn.trans hrname)
  refine ⟨r, hrk, hrname, hrmem, ?_, ?_, ?_⟩
  · intro s hs hsn
    have := hrmax s hs hsn
    simp only [latest_ge, decide_eq_true_eq] at this
    omega
  · intro s hs hsn hmt
    have := hrmax s hs hsn
    simp only [latest_ge, decide_eq_true_eq] at this
    omega
  · intro s hsk hsn
    rw [hpipe, mem_keep_latests] at hsk
    obtain ⟨hsmem, hsmax⟩ := hsk
    have hsscan : s ∈ scan := (mem_sorted_iff scan s).1 hsmem
    have h1 : latest_ge r s = true := hrmax s hsscan hsn
    have h2 : latest_ge s r = true :=
      hsmax r ((mem_sorted_iff scan r).2 hrmem) (hrname.trans hsn.symm)
    have hpe : s.pos = r.pos := by
      simp only [latest_ge, decide_eq_true_eq] at h1 h2
      omega
    exact pos_inj scan hpos s hsscan r hrmem hpe


/-- The concrete scan of the C5 witness: two versions of one file. -/
def c5_scan : List MetaRec :=
  [{ name := ['f'], mtime := 1000, pos := 0 }, { name := ['f'], mtime := 2000, pos := 1 }]

/-- Witness for C5 at a concrete two-version scan. -/
theorem latest_reduction_unique_max_witness :
    c5_scan.Pairwise (fun a b => a.pos < b.pos) ∧
    (∃ r ∈ c5_scan, r.name = ['f']) ∧
    (∃ r, r ∈ file_get_list_of_files true c5_scan ∧ r.name = ['f'] ∧ r ∈ c5_scan ∧
      (∀ s ∈ c5_scan, s.name = ['f'] → s.mtime ≤ r.mtime) ∧
      (∀ s ∈ c5_scan, s.name = ['f'] → s.mtime = r.mtime → s.pos ≤ r.pos) ∧
      (∀ s, s ∈ file_get_list_of_files true c5_scan → s.name = ['f'] → s = r)) :=
  ⟨by decide, by decide,
    latest_reduction_unique_max c5_scan (by decide) ['f'] (by decide)⟩

/- ===================== C8, C10: POST handlers ===================== -/

/-- The fields of `meta_data_t` the POST pipeline inspects: the file
name, the declared size, and the hash list. -/
structure MetaData where
  name : List Char
  size : Nat
  hash_data_list : List (List Nat)
deriving DecidableEq

/-- `server_meta_data_t`: hostname, the data_sent flag, and the
metadata (possibly missing when the conversion half-fails). -/
structure SMeta where
  hostname : List Char
  data_sent : Bool
  meta : Option MetaData
deriving DecidableEq

/-- The server state a POST handler can affect: the two work queues
(appended on push, popped from the front by the writer threads) and the
backend filesystem. -/
structure ServerState where
  meta_queue : List SMeta
  data_queue : List HashData
  backend_fs : FileSystem

/-- `find_needed_hashs` (server.c:714-739): the file backend supplies a
`build_needed_hash_list` function (`init_server_main_structure`,
server.c:136), so the needed subset is computed by
`file_build_needed_hash_list` over the backend filesystem. -/
def find_needed_hashs (fb : FileBackend) (s : ServerState)
    (hash_data_list : List (List Nat)) : List (List Nat) :=
  file_build_needed_hash_list fb s.backend_fs hash_data_list

/-- The JSON answer of a POST handler: a `{hash_list: [...]}` object or
an error envelope (reason text elided). -/
inductive PostAnswer where
  | hashList (hashes : List (List Nat))
  | error (code : Nat)
deriving DecidableEq

/-- `answer_hash_array_post_request` (server.c:806-845): parse the
posted `{hash_list}` body (the JSON decoding is opaque, passed as
`parse`), compute the needed subset, and answer it.  Nothing is pushed
on either queue and the filesystem is untouched. -/
def answer_hash_array_post_request (fb : FileBackend)
    (parse : List Char → List (List Nat)) (s : ServerState)
    (received_data : List Char) : ServerState × PostAnswer :=
  (s, PostAnswer.hashList (find_needed_hashs fb s (parse received_data)))

/-- `answer_meta_json_post_request` (server.c:751-795): convert the body
to server metadata (`convert_json_to_smeta_data`, opaque `convert`);
on success compute the answer — the needed subset of the record's hash
list when `data_sent` is false, the empty array when it is true — and
push the record once onto the metadata queue; on failure answer a 500
envelope and push nothing. -/
def answer_meta_json_post_request (fb : FileBackend)
    (convert : List Char → Option SMeta) (s : ServerState)
    (received_data : List Char) : ServerState × PostAnswer :=
  match convert received_data with
  | some smeta =>
    match smeta.meta with
    | some meta =>
      ({ s with meta_queue := s.meta_queue ++ [smeta] },
       if smeta.data_sent = false then
         PostAnswer.hashList (find_needed_hashs fb s meta.hash_data_list)
       else
         PostAnswer.hashList [])
    | none => (s, PostAnswer.error MHD_HTTP_INTERNAL_SERVER_ERROR)
  | none => (s, PostAnswer.error MHD_HTTP_INTERNAL_SERVER_ERROR)

/-- C8.  Processing a POST /Hash_Array.json request has no storage side
effect: the metadata queue, the data queue and the backend filesystem
(block store and host journals) are unchanged, and the answer is the
`{hash_list}` object holding the needed subset of the posted hash
list. -/
theorem hash_array_post_no_storage_effect (fb : FileBackend)
    (parse : List Char → List (List Nat)) (s : ServerState)
    (received_data : List Char) :
    (answer_hash_array_post_request fb parse s received_data).1.meta_queue = s.meta_queue ∧
    (answer_hash_array_post_request fb parse s received_data).1.data_queue = s.data_queue ∧
    (answer_hash_array_post_request fb parse s received_data).1.backend_fs = s.backend_fs ∧
    (answer_hash_array_post_request fb parse s received_data).2 =
      PostAnswer.hashList (file_build_needed_hash_list fb s.backend_fs (parse received_data)) :=
  ⟨rfl, rfl, rfl, rfl⟩

/-- C10.  A well-formed POST /Meta.json body that converts to a server
metadata record pushes that record exactly once onto the metadata queue
(data queue and filesystem untouched), and the answer's hash_list is the
needed subset of the record's hash list when data_sent is false, the
empty array when data_sent is true. -/
theorem meta_post_enqueues_once_and_answers (fb : FileBackend)
    (convert : List Char → Option SMeta) (s : ServerState)
    (received_data : List Char) (smeta : SMeta) (meta : MetaData)
    (hconv : convert received_data = some smeta) (hmeta : smeta.meta = some meta) :
    (answer_meta_json_post_request fb convert s received_data).1.meta_queue =
      s.meta_queue ++ [smeta] ∧
    (answer_meta_json_post_request fb convert s received_data).1.data_queue =
      s.data_queue ∧
    (answer_meta_json_post_request fb convert s received_data).1.backend_fs =
      s.backend_fs ∧
    (answer_meta_json_post_request fb convert s received_data).2 =
      (if smeta.data_sent then PostAnswer.hashList []
       else PostAnswer.hashList
         (file_build_needed_hash_list fb s.backend_fs meta.hash_data_list)) := by
  rw [answer_meta_json_post_request]
  simp only [hconv, hmeta]
  cases hds : smeta.data_sent
  · simp [find_needed_hashs]
  · simp [find_needed_hashs]

/-- The metadata of the C10 witness. -/
def c10_meta : MetaData := { name := ['f'], size := 1, hash_data_list := [[3]] }

/-- A concrete conversion for the C10 witness. -/
def c10_smeta : SMeta :=
  { hostname := ['h'], data_sent := false, meta := some c10_meta }

/-- The conversion function of the C10 witness. -/
def c10_convert : List Char → Option SMeta := fun _ => some c10_smeta

/-- A concrete state for the C10 witness. -/
def c10_state : ServerState :=
  { meta_queue := [], data_queue := [],
    backend_fs := { data := fun _ => none, fmeta := fun _ => none } }

/-- A concrete backend for the C10 witness. -/
def c10_fb : FileBackend := { prefix2 := [], level := 2 }

/-- Witness for C10 at a concrete conversion and state. -/
theorem meta_post_enqueues_once_and_answers_witness :
    c10_convert [] = some c10_smeta ∧ c10_smeta.meta = some c10_meta ∧
    ((answer_meta_json_post_request c10_fb c10_convert c10_state []).1.meta_queue =
        c10_state.meta_queue ++ [c10_smeta] ∧
      (answer_meta_json_post_request c10_fb c10_convert c10_state []).1.data_queue =
        c10_state.data_queue ∧
      (answer_meta_json_post_request c10_fb c10_convert c10_state []).1.backend_fs =
        c10_state.backend_fs ∧
      (answer_meta_json_post_request c10_fb c10_convert c10_state []).2 =
        (if c10_smeta.data_sent then PostAnswer.hashList []
         else PostAnswer.hashList (file_build_needed_hash_list c10_fb
           c10_state.backend_fs c10_meta.hash_data_list))) :=
  ⟨rfl, rfl,
    meta_post_enqueues_once_and_answers c10_fb c10_convert c10_state []
      c10_smeta c10_meta rfl rfl⟩

/- ===================== C9: backend init and configuration ===================== -/

/-- Modelled from the spec: `FILE_BACKEND_LEVEL`, the default dir-level
(2). -/
def FILE_BACKEND_LEVEL : Int := 2

/-- What `read_from_group_file_backend` sees of the configuration file:
whether the key file loads, whether the `file_backend` group is present,
and the two optional keys. -/
structure BackendConfig where
  loads : Bool
  has_group : Bool
  file_directory : Option (List Char)
  dir_level : Option Int

/-- `read_from_group_file_backend` (file_backend.c:482-522): when the
key file loads and holds the `file_backend` group, read `file-directory`
(path normalization elided) and `dir-level` (`read_int_from_file`,
modelled from the spec: the key's value, or the default
`FILE_BACKEND_LEVEL` when the key is missing); otherwise `level` keeps
its initial 0.  The read level replaces the backend level only when
`level > 0 && level < 6`. -/
def read_from_group_file_backend (fb : FileBackend) (conf : BackendConfig) : FileBackend :=
  let level : Int :=
    if conf.loads ∧ conf.has_group then
      match conf.dir_level with
      | some v => v
      | none => FILE_BACKEND_LEVEL
    else 0
  let fb1 : FileBackend :=
    if conf.loads ∧ conf.has_group then
      match conf.file_directory with
      | some p => { fb with prefix2 := p }
      | none => fb
    else fb
  if 0 < level ∧ level < 6 then { fb1 with level := level.toNat } else fb1

/-- The outcome of `make_all_subdirectories`: the data subdirectories
created (with the final `.done` sentinel), or a refusal (an error is
printed and nothing is created). -/
inductive MkdirResult where
  | created (dirs : List (List Char))
  | refused
deriving DecidableEq

/-- The fan-out digit bytes of subdirectory number `i`: one byte per
level, most significant first (`number = i / pow(256, p)`, reduced mod
256), as computed by the loop of `make_all_subdirectories`
(file_backend.c:429-459). -/
def fanout_digits (level i : Nat) : List Nat :=
  (List.range level).reverse.map (fun p => i / 256 ^ p % 256)

/-- `make_all_subdirectories` (file_backend.c:415-472): when the level
is strictly between 1 and 5 create every fan-out subdirectory under
`prefix/data` and the `.done` sentinel; for any other level refuse with
an error and create nothing. -/
def make_all_subdirectories (fb : FileBackend) : MkdirResult :=
  if fb.level < 5 ∧ fb.level > 1 then
    MkdirResult.created
      ((List.range (256 ^ fb.level)).map
          (fun i => fb.prefix2 ++ slashData ++ hash_fanout (fanout_digits fb.level i)) ++
        [fb.prefix2 ++ slashData ++ '/' :: ['.', 'd', 'o', 'n', 'e']])
  else MkdirResult.refused

/-- A concrete default backend for the C9 counterexample. -/
def c9_fb : FileBackend := { prefix2 := [], level := 2 }

/-- A concrete configuration carrying dir-level 1 for the C9
counterexample. -/
def c9_conf : BackendConfig :=
  { loads := true, has_group := true, file_directory := none, dir_level := some 1 }

/-- C9 counterexample.  A configuration file carrying dir-level 1 is
accepted by `read_from_group_file_backend` (the backend level becomes
1), although 1 lies outside the allowed range 2..5 the claim states. -/
theorem config_level_one_accepted :
    (read_from_group_file_backend c9_fb c9_conf).level = 1 ∧
    ¬(2 ≤ (1 : Int) ∧ (1 : Int) ≤ 5) :=
  ⟨rfl, by decide⟩

/-- C9 (amended).  `make_all_subdirectories` refuses every level outside
[2,4] (creating nothing) and creates the tree for levels within [2,4];
the configuration reader accepts a configured dir-level v exactly when
0 < v < 6 (so 1..5, not 2..5; default 2), keeping the previous level
otherwise. -/
theorem backend_level_guard (fb : FileBackend) (conf : BackendConfig) (v : Int)
    (hl : conf.loads = true) (hg : conf.has_group = true)
    (hv : conf.dir_level = some v) :
    ((fb.level < 2 ∨ fb.level > 4) → make_all_subdirectories fb = MkdirResult.refused) ∧
    ((2 ≤ fb.level ∧ fb.level ≤ 4) → make_all_subdirectories fb ≠ MkdirResult.refused) ∧
    (read_from_group_file_backend fb conf).level =
      (if 0 < v ∧ v < 6 then v.toNat else fb.level) := by
  refine ⟨?_, ?_, ?_⟩
  · intro hout
    rw [make_all_subdirectories, if_neg (by omega)]
  · intro hin
    rw [make_all_subdirectories, if_pos (by omega)]
    exact MkdirResult.noConfusion
  · rw [read_from_group_file_backend]
    simp only [hl, hg, hv, true_and, and_self, if_true]
    cases hd : conf.file_directory <;> by_cases hr : 0 < v ∧ v < 6 <;>
      simp [hd, hr]

/-- A backend at level 5 for the C9 witness. -/
def c9w_fb : FileBackend := { prefix2 := [], level := 5 }

/-- Witness for C9 (amended) at level 5 and configured dir-level 1. -/
theorem backend_level_guard_witness :
    c9_conf.loads = true ∧ c9_conf.has_group = true ∧ c9_conf.dir_level = some 1 ∧
    (((c9w_fb.level < 2 ∨ c9w_fb.level > 4) →
        make_all_subdirectories c9w_fb = MkdirResult.refused) ∧
      ((2 ≤ c9w_fb.level ∧ c9w_fb.level ≤ 4) →
        make_all_subdirectories c9w_fb ≠ MkdirResult.refused) ∧
      (read_from_group_file_backend c9w_fb c9_conf).level =
        (if 0 < (1 : Int) ∧ (1 : Int) < 6 then (1 : Int).toNat else c9w_fb.level)) :=
  ⟨rfl, rfl, rfl, backend_level_guard c9w_fb c9_conf 1 rfl rfl rfl⟩
